import Mathlib

/-!
Shallow embedding of the material-batch FIFO ledger of the DivyaSwastikBackend
repository: the Material model (src/models/Material.js), the material routes
POST /add, POST /take and PUT /status/:matCode (src/unnamed/part_002), and the
monthly material report (getMonthRange and GET /material-report/:projectId in
src/models/Employee.js), together with proofs of the specification claims
about them.

Numbers (quantities, amounts, timestamps) are modelled as `Int`; timestamps
are milliseconds since the epoch, with the JavaScript local timezone taken to
be UTC.  A Mongo document id `_id` is modelled as a `Nat` field `mid`.
-/

/-- One entry of `usageHistory` (src/models/Material.js lines 17-21): an
append-only consumption record. -/
structure UsageEvent where
  takenBy : String
  quantity : Int
  date : Int
  deriving Repr, DecidableEq

/-- One material batch document (materialSchema in src/models/Material.js).
`mid` models the Mongo `_id`.  The `status` enum of the schema is a plain
string here because PUT /status/:matCode writes values outside that enum
(`updateMany` bypasses schema validation). -/
structure Material where
  mid : Nat
  name : String
  matCode : String
  quantity : Int
  availableQuantity : Int
  amount : Int
  date : Int
  document : String
  addedBy : String
  status : String
  usageHistory : List UsageEvent
  projectAssigned : Nat
  deriving Repr, DecidableEq

/-- Ascending order on `date`, the sort key of `.sort({ date: 1 })`. -/
def dateLe (a b : Material) : Prop := a.date ≤ b.date

instance : DecidableRel dateLe :=
  fun a b => inferInstanceAs (Decidable (a.date ≤ b.date))

instance : IsTotal Material dateLe := ⟨fun a b => Int.le_total a.date b.date⟩

instance : IsTrans Material dateLe := ⟨fun _ _ _ => Int.le_trans⟩

/-- Predicate of the query `{ matCode, availableQuantity: { $gt: 0 } }` of
POST /take. -/
def takeQuery (code : String) (m : Material) : Bool :=
  m.matCode == code && decide (0 < m.availableQuantity)

/-- Batches matching the take query, oldest `date` first, as produced by
`Material.find({ matCode, availableQuantity: { $gt: 0 } }).sort({ date: 1 })`
(src/unnamed/part_002 lines 56-59).  Mongo's single-key sort is modelled by a
stable sort on the store order. -/
def selectFIFO (store : List Material) (code : String) : List Material :=
  List.insertionSort dateLe (store.filter (takeQuery code))

/-- The deduction loop of POST /take (src/unnamed/part_002 lines 78-102).
Returns the final `qtyToTake` together with the per-document updated list of
the visited documents.  In the first branch the source pushes a usage event
before zeroing `availableQuantity`, so the event carries the old value. -/
def fifoDeduct (takenBy : String) (evDate : Int) :
    Int → List Material → Int × List Material
  | qtyToTake, [] => (qtyToTake, [])
  | qtyToTake, m :: rest =>
    if qtyToTake ≤ 0 then (qtyToTake, m :: rest)
    else if m.availableQuantity ≥ qtyToTake then
      let m' := { m with
        availableQuantity := m.availableQuantity - qtyToTake,
        usageHistory := m.usageHistory ++
          [{ takenBy := takenBy, quantity := qtyToTake, date := evDate }] }
      let r := fifoDeduct takenBy evDate 0 rest
      (r.1, m' :: r.2)
    else
      let m' := { m with
        availableQuantity := 0,
        usageHistory := m.usageHistory ++
          [{ takenBy := takenBy, quantity := m.availableQuantity, date := evDate }] }
      let r := fifoDeduct takenBy evDate (qtyToTake - m.availableQuantity) rest
      (r.1, m' :: r.2)

/-- Saving each mutated document back (`material.save()` per touched
document): every document of the store whose `_id` occurs among the updated
documents is replaced by its updated version. -/
def applyUpdates (store updated : List Material) : List Material :=
  store.map (fun m => (updated.find? (fun u => u.mid == m.mid)).getD m)

/-- Error outcomes of POST /take: 404 "Material not found or out of stock"
and 400 "Not enough material available". -/
inductive TakeError where
  | materialNotFound
  | insufficientStock
  deriving Repr, DecidableEq

/-- POST /take (src/unnamed/part_002 lines 50-108) as a function of the
store.  `totalAvailable` is the source's left fold `reduce((acc, m) => acc +
m.availableQuantity, 0)`. -/
def takeMaterial (store : List Material) (code : String) (quantity : Int)
    (takenBy : String) (evDate : Int) : Except TakeError (List Material) :=
  let materials := selectFIFO store code
  if materials.isEmpty then .error .materialNotFound
  else
    let totalAvailable := materials.foldl (fun acc m => acc + m.availableQuantity) 0
    if totalAvailable < quantity then .error .insufficientStock
    else .ok (applyUpdates store (fifoDeduct takenBy evDate quantity materials).2)

/-- State transition of POST /take: on an error response nothing was saved,
the store is unchanged. -/
def takeStep (store : List Material) (code : String) (quantity : Int)
    (takenBy : String) (evDate : Int) : List Material :=
  match takeMaterial store code quantity takenBy evDate with
  | .ok store' => store'
  | .error _ => store

/-- The document built by POST /add (src/unnamed/part_002 lines 31-40) and
handed to `save()`: `availableQuantity` is initialised to `quantity`,
`usageHistory` is empty and `status` takes the schema default "Available".
The route never sets `name`, so it is empty here - which is exactly why
`save()` rejects this document (see `saveOk`). -/
def mkMaterial (mid : Nat) (matCode : String) (quantity amount : Int)
    (document addedBy : String) (date : Int) (projectAssigned : Nat) : Material :=
  { mid := mid, name := "", matCode := matCode, quantity := quantity,
    availableQuantity := quantity, amount := amount, date := date,
    document := document, addedBy := addedBy, status := "Available",
    usageHistory := [], projectAssigned := projectAssigned }

/-- Error outcome of POST /add: `material.save()` raising a mongoose schema
validation error, answered as a 500 with nothing persisted
(src/unnamed/part_002 lines 44-46). -/
inductive AddError where
  | validationFailed
  deriving Repr, DecidableEq

/-- The part of materialSchema's save-time validation that POST /add can
violate: `name` is required (src/models/Material.js line 4) and the mongoose
String required check rejects a missing or empty value, but the route never
sets `name`.  The other required paths (`matCode`, `quantity`, `date`,
`addedBy`, `projectAssigned`) are always supplied by the route and are total
fields of this model. -/
def saveOk (m : Material) : Bool := !(m.name == "")

/-- POST /add (src/unnamed/part_002 lines 21-47) as a function of the store:
the built document is persisted only if `save()` validates - which never
happens for this route, because the schema-required `name` is absent from
the constructed document.  The Project.findById precheck is not modelled: it
is only a further error path that also persists nothing. -/
def addMaterial (store : List Material) (mid : Nat) (matCode : String)
    (quantity amount : Int) (document addedBy : String) (date : Int)
    (projectAssigned : Nat) : Except AddError (List Material) :=
  let material := mkMaterial mid matCode quantity amount document addedBy date projectAssigned
  if saveOk material then .ok (store ++ [material])
  else .error .validationFailed

/-- State transition of POST /add: on the validation error (the only outcome
this route can reach) the store is unchanged. -/
def addStep (store : List Material) (mid : Nat) (matCode : String)
    (quantity amount : Int) (document addedBy : String) (date : Int)
    (projectAssigned : Nat) : List Material :=
  match addMaterial store mid matCode quantity amount document addedBy date projectAssigned with
  | .ok store' => store'
  | .error _ => store

/-- Error outcomes of PUT /status/:matCode: 400 "Invalid status value" and
404 "No materials found with this matCode". -/
inductive StatusError where
  | invalidStatus
  | notFound
  deriving Repr, DecidableEq

/-- The status whitelist of PUT /status/:matCode (src/unnamed/part_002 line
160). -/
def statusWhitelist : List String := ["available", "on hold", "out of stock"]

/-- The status values of the materialSchema enum (src/models/Material.js
lines 12-16). -/
def statusEnum : List String := ["Available", "Out of Stock", "On Hold"]

/-- The per-document update performed by the `updateMany` of
PUT /status/:matCode: a document with the given `matCode` gets the new
status and, when that status is "out of stock", `availableQuantity := 0`;
other documents are untouched. -/
def statusApply (matCode status : String) (m : Material) : Material :=
  if m.matCode == matCode then
    { m with status := status,
             availableQuantity :=
               if status == "out of stock" then 0 else m.availableQuantity }
  else m

/-- PUT /status/:matCode (src/unnamed/part_002 lines 155-190).  `updateMany`
sets `status` on every document with the given `matCode` and, when the new
status is "out of stock", also sets `availableQuantity` to 0.  The source
checks `matchedCount` after the update, but an update matching no document
changes nothing, so checking first is equivalent. -/
def updateStatusOp (store : List Material) (matCode status : String) :
    Except StatusError (List Material) :=
  if ! statusWhitelist.contains status then .error .invalidStatus
  else if (store.filter (fun m => m.matCode == matCode)).isEmpty then .error .notFound
  else .ok (store.map (statusApply matCode status))

/-- State transition of PUT /status/:matCode: on an error response the store
is unchanged. -/
def statusStep (store : List Material) (matCode status : String) : List Material :=
  match updateStatusOp store matCode status with
  | .ok store' => store'
  | .error _ => store

/-- ECMA-262 leap-year test used by the JavaScript Date object. -/
def isLeapYear (y : Int) : Bool :=
  (y % 4 == 0 && y % 100 != 0) || y % 400 == 0

/-- ECMA-262 cumulative day table: days of the year before 0-indexed month
`m`. -/
def dayFromMonth (m : Int) (leap : Bool) : Int :=
  let L : Int := if leap then 1 else 0
  if m = 0 then 0
  else if m = 1 then 31
  else if m = 2 then 59 + L
  else if m = 3 then 90 + L
  else if m = 4 then 120 + L
  else if m = 5 then 151 + L
  else if m = 6 then 181 + L
  else if m = 7 then 212 + L
  else if m = 8 then 243 + L
  else if m = 9 then 273 + L
  else if m = 10 then 304 + L
  else 334 + L

/-- Number of days of the 0-indexed month `m`. -/
def daysInMonth (m : Int) (leap : Bool) : Int :=
  if m = 1 then (if leap then 29 else 28)
  else if m = 3 ∨ m = 5 ∨ m = 8 ∨ m = 10 then 30
  else 31

/-- ECMA-262 DayFromYear. -/
def dayFromYear (y : Int) : Int :=
  365 * (y - 1970) + (y - 1969) / 4 - (y - 1901) / 100 + (y - 1601) / 400

/-- ECMA-262 MakeDay: the day number of `new Date(y, m, d)` (months
0-indexed; out-of-range month and day indices are normalised exactly as in
JavaScript). -/
def makeDay (y m d : Int) : Int :=
  let ym := y + m / 12
  let mn := m % 12
  dayFromYear ym + dayFromMonth mn (isLeapYear ym) + d - 1

/-- Milliseconds per day. -/
def msPerDay : Int := 86400000

/-- Time value of `new Date(y, m, d, h, mi, s, ms)` (local time taken as
UTC). -/
def dateValue (y m d h mi s ms : Int) : Int :=
  makeDay y m d * msPerDay + (h * 3600000 + mi * 60000 + s * 1000 + ms)

/-- getMonthRange of src/models/Employee.js lines 147-151: `start` is
`new Date(year, month - 1, 1)` and `end` is
`new Date(year, month, 0, 23, 59, 59, 999)`. -/
def getMonthRange (year month : Int) : Int × Int :=
  (dateValue year (month - 1) 1 0 0 0 0, dateValue year month 0 23 59 59 999)

/-- One element of the `additions` list of a report line.  The date is kept
as a time value; the ISO string formatting of the source is display-only. -/
structure AdditionEntry where
  date : Int
  quantity : Int
  addedBy : String
  withinMonth : Bool
  deriving Repr, DecidableEq

/-- One element of the `consumptions` list of a report line. -/
structure ConsumptionEntry where
  date : Int
  quantity : Int
  consumedBy : String
  withinMonth : Bool
  deriving Repr, DecidableEq

/-- One line of the material report. -/
structure ReportLine where
  matCode : String
  matName : String
  remaining : Int
  additions : List AdditionEntry
  consumptions : List ConsumptionEntry
  monthlyAdded : Int
  monthlyConsumed : Int
  deriving Repr, DecidableEq

/-- The per-material body of the report map (src/models/Employee.js lines
167-196).  `consumedBy` models `c.takenBy || "N/A"` (the empty string is the
only falsy String value here); `remaining` models `mat.availableQuantity || 0`
(the fallback only matters for a missing field, which `Int` cannot encode);
`monthlyConsumed` is the source's left fold `reduce((sum, c) => sum +
c.quantity, 0)` over the within-month consumptions. -/
def reportLine (start stop : Int) (mat : Material) : ReportLine :=
  let additions := [{ date := mat.date, quantity := mat.quantity,
                      addedBy := mat.addedBy,
                      withinMonth := decide (start ≤ mat.date ∧ mat.date ≤ stop) }]
  let consumptions := mat.usageHistory.map (fun c =>
    { date := c.date, quantity := c.quantity,
      consumedBy := if c.takenBy == "" then "N/A" else c.takenBy,
      withinMonth := decide (start ≤ c.date ∧ c.date ≤ stop) : ConsumptionEntry })
  { matCode := mat.matCode,
    matName := mat.name,
    remaining := mat.availableQuantity,
    additions := additions,
    consumptions := consumptions,
    monthlyAdded := if start ≤ mat.date ∧ mat.date ≤ stop then mat.quantity else 0,
    monthlyConsumed := (consumptions.filter (fun c => c.withinMonth)).foldl
      (fun sum c => sum + c.quantity) 0 }

/-- GET /material-report/:projectId (src/models/Employee.js lines 154-203):
one line per document assigned to the project. -/
def materialReport (store : List Material) (projectId : Nat) (month year : Int) :
    List ReportLine :=
  let r := getMonthRange year month
  (store.filter (fun m => m.projectAssigned == projectId)).map (reportLine r.1 r.2)

/-- Modelled from the spec: step 4 of the consumption algorithm, "iterate the
ordered batches; for each, deduct min(remainingQuantity, amountStillNeeded)
from remainingQuantity, append a UsageEvent with that deducted quantity,
takenBy, and date, and reduce amountStillNeeded by the same; stop when
amountStillNeeded reaches zero".  This is the specification side of the
refinement stated by claim C1; the code side is `fifoDeduct`. -/
def specVisit (takenBy : String) (evDate : Int) : Int → List Material → List Material
  | _, [] => []
  | need, m :: rest =>
    if need ≤ 0 then m :: rest
    else
      let d := min m.availableQuantity need
      { m with availableQuantity := m.availableQuantity - d,
               usageHistory := m.usageHistory ++
                 [{ takenBy := takenBy, quantity := d, date := evDate }] }
        :: specVisit takenBy evDate (need - d) rest

/-- Sum of `availableQuantity` over a list of documents. -/
def availSum (l : List Material) : Int := (l.map Material.availableQuantity).sum

/-- Aggregate remaining quantity over all batches of a material code. -/
def codeAvail (store : List Material) (code : String) : Int :=
  availSum (store.filter (fun m => m.matCode == code))

/-- Sum of the usage-event quantities of one batch. -/
def sumUsage (m : Material) : Int := (m.usageHistory.map UsageEvent.quantity).sum

/-- Decidable form of claim C3's per-batch bound: `remainingQuantity` lies in
`[0, deliveredQuantity]`. -/
def inDeliveredRange (m : Material) : Bool :=
  decide (0 ≤ m.availableQuantity ∧ m.availableQuantity ≤ m.quantity)

/-- Decidable form of claim C4's conservation equation: `remainingQuantity =
deliveredQuantity - sum(usageEvents[].quantity)`. -/
def usageConserved (m : Material) : Bool :=
  decide (m.availableQuantity = m.quantity - sumUsage m)

/-- Stores reachable from the empty store by additions and consumptions, the
operation sequences quantified over by claim C3; the `Nat` component is the
next fresh `_id`. -/
inductive ReachAT : List Material → Nat → Prop where
  | init : ReachAT [] 0
  | add (store : List Material) (n : Nat) (matCode : String)
      (quantity amount : Int) (document addedBy : String) (date : Int)
      (projectAssigned : Nat) : ReachAT store n →
      ReachAT (addStep store n matCode quantity amount document addedBy date projectAssigned)
        (n + 1)
  | take (store : List Material) (n : Nat) (code : String) (quantity : Int)
      (takenBy : String) (evDate : Int) : ReachAT store n →
      ReachAT (takeStep store code quantity takenBy evDate) n

/-- Stores reachable by additions, consumptions and bulk status updates: the
operation sequences quantified over by claim C4. -/
inductive ReachFull : List Material → Nat → Prop where
  | init : ReachFull [] 0
  | add (store : List Material) (n : Nat) (matCode : String)
      (quantity amount : Int) (document addedBy : String) (date : Int)
      (projectAssigned : Nat) : ReachFull store n →
      ReachFull (addStep store n matCode quantity amount document addedBy date projectAssigned)
        (n + 1)
  | take (store : List Material) (n : Nat) (code : String) (quantity : Int)
      (takenBy : String) (evDate : Int) : ReachFull store n →
      ReachFull (takeStep store code quantity takenBy evDate) n
  | status (store : List Material) (n : Nat) (matCode status : String) :
      ReachFull store n → ReachFull (statusStep store matCode status) n

/-- Relation between a selected document and its state after the deduction
loop: the identity and all immutable fields are unchanged, the remaining
quantity did not increase and did not drop below zero, and the usage history
grew by an appended tail whose quantities account exactly for the decrease of
`availableQuantity`. -/
def DeductRel (a b : Material) : Prop :=
  b.mid = a.mid ∧ b.name = a.name ∧ b.matCode = a.matCode ∧
  b.quantity = a.quantity ∧ b.amount = a.amount ∧ b.date = a.date ∧
  b.document = a.document ∧ b.addedBy = a.addedBy ∧ b.status = a.status ∧
  b.projectAssigned = a.projectAssigned ∧
  0 ≤ b.availableQuantity ∧ b.availableQuantity ≤ a.availableQuantity ∧
  ∃ tail, b.usageHistory = a.usageHistory ++ tail ∧
    b.availableQuantity = a.availableQuantity - (tail.map UsageEvent.quantity).sum

/-- Per-document contract of the bulk status update, used by claim C7: the
identity, usage history, delivered quantity and the remaining fields are
unchanged; a matching document gets the new status, with `availableQuantity`
forced to 0 exactly when the new status is "out of stock"; a non-matching
document is untouched. -/
def StatusRel (code status : String) (a b : Material) : Prop :=
  b.mid = a.mid ∧ b.name = a.name ∧ b.matCode = a.matCode ∧
  b.quantity = a.quantity ∧ b.amount = a.amount ∧ b.date = a.date ∧
  b.document = a.document ∧ b.addedBy = a.addedBy ∧
  b.usageHistory = a.usageHistory ∧
  (a.matCode = code → b.status = status ∧
    (status = "out of stock" → b.availableQuantity = 0) ∧
    (status ≠ "out of stock" → b.availableQuantity = a.availableQuantity)) ∧
  (a.matCode ≠ code → b = a)

/-- First batch of the concrete witness scenario used by several claim
witnesses (the spec's own test scenario: two CEM1 batches of 100 and 50). -/
def batchA : Material := mkMaterial 0 "CEM1" 100 10 "" "admin" 1 7

/-- Second batch of the witness scenario. -/
def batchB : Material := mkMaterial 1 "CEM1" 50 10 "" "admin" 5 7

/-- Witness store of the spec's scenario. -/
def storeW : List Material := [batchA, batchB]


/-- Batch of the report witness scenario: delivered February 3 2024, one
usage event inside February and one in March. -/
def batchR : Material :=
  { mid := 2, name := "", matCode := "CEM1", quantity := 100,
    availableQuantity := 75, amount := 10, date := dateValue 2024 1 3 0 0 0 0,
    document := "", addedBy := "admin", status := "Available",
    usageHistory := [{ takenBy := "w", quantity := 20, date := dateValue 2024 1 10 0 0 0 0 },
                     { takenBy := "w", quantity := 5, date := dateValue 2024 2 2 0 0 0 0 }],
    projectAssigned := 7 }

/-- Store of the report witness scenario. -/
def storeR : List Material := [batchR]

/-! ### Basic lemmas about the deduction loop -/

theorem fifoDeduct_nonpos (tb : String) (dt : Int) {q : Int} (l : List Material)
    (hq : q ≤ 0) : fifoDeduct tb dt q l = (q, l) := by
  cases l with
  | nil => rfl
  | cons m rest => simp [fifoDeduct, hq]

theorem specVisit_nonpos (tb : String) (dt : Int) {need : Int} (l : List Material)
    (h : need ≤ 0) : specVisit tb dt need l = l := by
  cases l with
  | nil => rfl
  | cons m rest => simp [specVisit, h]

theorem foldl_add_avail (l : List Material) (init : Int) :
    l.foldl (fun acc m => acc + m.availableQuantity) init = init + availSum l := by
  induction l generalizing init with
  | nil => simp [availSum]
  | cons m rest ih =>
    simp only [List.foldl_cons, ih, availSum, List.map_cons, List.sum_cons]
    ring

theorem availSum_cons (m : Material) (l : List Material) :
    availSum (m :: l) = m.availableQuantity + availSum l := by
  simp [availSum]

/-! ### Lemmas about the FIFO selection -/

theorem selectFIFO_perm (store : List Material) (code : String) :
    (selectFIFO store code).Perm (store.filter (takeQuery code)) :=
  List.perm_insertionSort dateLe _

theorem selectFIFO_sorted (store : List Material) (code : String) :
    List.Sorted dateLe (selectFIFO store code) :=
  List.sorted_insertionSort dateLe _

theorem takeQuery_iff (code : String) (m : Material) :
    takeQuery code m = true ↔ m.matCode = code ∧ 0 < m.availableQuantity := by
  simp [takeQuery]

theorem selectFIFO_mem {store : List Material} {code : String} {m : Material} :
    m ∈ selectFIFO store code ↔ m ∈ store ∧ m.matCode = code ∧ 0 < m.availableQuantity := by
  rw [(selectFIFO_perm store code).mem_iff, List.mem_filter, takeQuery_iff]

theorem selectFIFO_pos {store : List Material} {code : String} :
    ∀ m ∈ selectFIFO store code, 0 < m.availableQuantity :=
  fun _ hm => (selectFIFO_mem.1 hm).2.2

theorem selectFIFO_sub {store : List Material} {code : String} :
    ∀ m ∈ selectFIFO store code, m ∈ store :=
  fun _ hm => (selectFIFO_mem.1 hm).1

theorem selectFIFO_isEmpty {store : List Material} {code : String} :
    (selectFIFO store code).isEmpty = true ↔
      ∀ m ∈ store, m.matCode = code → m.availableQuantity ≤ 0 := by
  rw [List.isEmpty_iff]
  constructor
  · intro h m hm hcode
    by_contra hpos
    have : m ∈ selectFIFO store code :=
      selectFIFO_mem.2 ⟨hm, hcode, lt_of_not_le fun hle => hpos hle⟩
    rw [h] at this
    exact absurd this (List.not_mem_nil m)
  · intro h
    have hf : store.filter (takeQuery code) = [] := by
      rw [List.filter_eq_nil_iff]
      intro m hm hq
      rcases (takeQuery_iff code m).1 hq with ⟨hcode, hpos⟩
      exact absurd hpos (not_lt_of_le (h m hm hcode))
    have := (selectFIFO_perm store code).symm
    rw [hf] at this
    exact this.symm.eq_nil

/-! ### The per-document shape of a deduction -/

theorem DeductRel.refl_of_pos {a : Material} (ha : 0 < a.availableQuantity) :
    DeductRel a a := by
  refine ⟨rfl, rfl, rfl, rfl, rfl, rfl, rfl, rfl, rfl, rfl, le_of_lt ha, le_refl _,
    [], by simp, by simp⟩

theorem forall₂_deductRel_refl {l : List Material}
    (hl : ∀ m ∈ l, 0 < m.availableQuantity) : List.Forall₂ DeductRel l l :=
  List.forall₂_same.2 fun m hm => DeductRel.refl_of_pos (hl m hm)

theorem fifoDeduct_forall₂ (tb : String) (dt : Int) :
    ∀ (need : Int) (sel : List Material), (∀ m ∈ sel, 0 < m.availableQuantity) →
      List.Forall₂ DeductRel sel (fifoDeduct tb dt need sel).2 := by
  intro need sel
  induction sel generalizing need with
  | nil => intro _; simp [fifoDeduct]
  | cons m rest ih =>
    intro hpos
    have hm : 0 < m.availableQuantity := hpos m (List.mem_cons_self m rest)
    have hrest : ∀ x ∈ rest, 0 < x.availableQuantity :=
      fun x hx => hpos x (List.mem_cons_of_mem m hx)
    by_cases h0 : need ≤ 0
    · rw [fifoDeduct_nonpos tb dt _ h0]
      exact forall₂_deductRel_refl hpos
    · have hneed : 0 < need := lt_of_not_le h0
      by_cases hge : m.availableQuantity ≥ need
      · simp only [fifoDeduct, if_neg h0, if_pos hge]
        rw [fifoDeduct_nonpos tb dt rest (le_refl 0)]
        refine List.Forall₂.cons ?_ (forall₂_deductRel_refl hrest)
        refine ⟨rfl, rfl, rfl, rfl, rfl, rfl, rfl, rfl, rfl, rfl,
          (by show (0 : Int) ≤ m.availableQuantity - need; omega),
          (by show m.availableQuantity - need ≤ m.availableQuantity; omega),
          [{ takenBy := tb, quantity := need, date := dt }], by simp, by simp⟩
      · simp only [fifoDeduct, if_neg h0, if_neg hge]
        refine List.Forall₂.cons ?_ (ih (need - m.availableQuantity) hrest)
        refine ⟨rfl, rfl, rfl, rfl, rfl, rfl, rfl, rfl, rfl, rfl, le_refl 0,
          le_of_lt hm,
          [{ takenBy := tb, quantity := m.availableQuantity, date := dt }], by simp, by simp⟩

theorem fifoDeduct_eq_specVisit (tb : String) (dt : Int) :
    ∀ (need : Int) (sel : List Material), (∀ m ∈ sel, 0 < m.availableQuantity) →
      0 < need → (fifoDeduct tb dt need sel).2 = specVisit tb dt need sel := by
  intro need sel
  induction sel generalizing need with
  | nil => intro _ _; simp [fifoDeduct, specVisit]
  | cons m rest ih =>
    intro hpos hneed
    have hm : 0 < m.availableQuantity := hpos m (List.mem_cons_self m rest)
    have hrest : ∀ x ∈ rest, 0 < x.availableQuantity :=
      fun x hx => hpos x (List.mem_cons_of_mem m hx)
    have h0 : ¬ need ≤ 0 := not_le_of_lt hneed
    by_cases hge : m.availableQuantity ≥ need
    · have hmin : min m.availableQuantity need = need := min_eq_right hge
      simp only [fifoDeduct, specVisit, if_neg h0, if_pos hge, hmin]
      rw [fifoDeduct_nonpos tb dt rest (le_refl 0),
        specVisit_nonpos tb dt rest (by omega)]
    · have hlt : m.availableQuantity < need := lt_of_not_le hge
      have hmin : min m.availableQuantity need = m.availableQuantity :=
        min_eq_left (le_of_lt hlt)
      simp only [fifoDeduct, specVisit, if_neg h0, if_neg hge, hmin, sub_self]
      rw [ih (need - m.availableQuantity) hrest (by omega)]

theorem fifoDeduct_sum (tb : String) (dt : Int) :
    ∀ (need : Int) (sel : List Material), (∀ m ∈ sel, 0 < m.availableQuantity) →
      0 < need → need ≤ availSum sel →
      (fifoDeduct tb dt need sel).1 = 0 ∧
        availSum (fifoDeduct tb dt need sel).2 = availSum sel - need := by
  intro need sel
  induction sel generalizing need with
  | nil =>
    intro _ hneed hle
    simp [availSum] at hle
    omega
  | cons m rest ih =>
    intro hpos hneed hle
    have hm : 0 < m.availableQuantity := hpos m (List.mem_cons_self m rest)
    have hrest : ∀ x ∈ rest, 0 < x.availableQuantity :=
      fun x hx => hpos x (List.mem_cons_of_mem m hx)
    have h0 : ¬ need ≤ 0 := not_le_of_lt hneed
    by_cases hge : m.availableQuantity ≥ need
    · simp only [fifoDeduct, if_neg h0, if_pos hge]
      rw [fifoDeduct_nonpos tb dt rest (le_refl 0)]
      constructor
      · rfl
      · simp only [availSum_cons]
        simp only [availSum_cons] at *
        omega
    · have hlt : m.availableQuantity < need := lt_of_not_le hge
      have hle' : need - m.availableQuantity ≤ availSum rest := by
        rw [availSum_cons] at hle
        omega
      have := ih (need - m.availableQuantity) hrest (by omega) hle'
      simp only [fifoDeduct, if_neg h0, if_neg hge]
      constructor
      · exact this.1
      · simp only [availSum_cons, this.2]
        omega

/-! ### Lemmas about saving updated documents back into the store -/

theorem applyUpdates_mem {store out : List Material} {m' : Material}
    (h : m' ∈ applyUpdates store out) : m' ∈ store ∨ m' ∈ out := by
  rcases List.mem_map.1 h with ⟨m, hm, rfl⟩
  cases hfind : out.find? (fun u => u.mid == m.mid) with
  | none => simp only [hfind, Option.getD_none]; exact Or.inl hm
  | some u =>
    simp only [hfind, Option.getD_some]
    exact Or.inr (List.mem_of_find?_eq_some hfind)

theorem mid_inj {store : List Material} (hids : (store.map Material.mid).Nodup)
    {a b : Material} (ha : a ∈ store) (hb : b ∈ store) (h : a.mid = b.mid) : a = b :=
  List.inj_on_of_nodup_map hids ha hb h

theorem applyUpdates_self {store out : List Material}
    (hids : (store.map Material.mid).Nodup) (hsub : ∀ u ∈ out, u ∈ store) :
    applyUpdates store out = store := by
  have hpt : ∀ m ∈ store, (out.find? (fun u => u.mid == m.mid)).getD m = m := by
    intro m hm
    cases hfind : out.find? (fun u => u.mid == m.mid) with
    | none => rfl
    | some u =>
      have hu : u ∈ out := List.mem_of_find?_eq_some hfind
      have hb := List.find?_some hfind
      have : u = m := mid_inj hids (hsub u hu) hm (by simpa using hb)
      simp [this]
  calc applyUpdates store out = store.map id := List.map_congr_left hpt
  _ = store := List.map_id store

theorem forall₂_mem_right {R : Material → Material → Prop} :
    ∀ {l₁ l₂ : List Material}, List.Forall₂ R l₁ l₂ →
      ∀ {b : Material}, b ∈ l₂ → ∃ a ∈ l₁, R a b := by
  intro l₁ l₂ hF
  induction hF with
  | nil => intro b hb; exact absurd hb (List.not_mem_nil b)
  | @cons a u l₁' l₂' hau _ ih =>
    intro b hb
    rcases List.mem_cons.1 hb with rfl | hb'
    · exact ⟨a, List.mem_cons_self a l₁', hau⟩
    · rcases ih hb' with ⟨a', ha', hr⟩
      exact ⟨a', List.mem_cons_of_mem a ha', hr⟩

theorem map_partner_eq :
    ∀ {sel out : List Material},
      List.Forall₂ (fun a b => b.mid = a.mid) sel out →
      (sel.map Material.mid).Nodup →
      sel.map (fun s => (out.find? (fun u => u.mid == s.mid)).getD s) = out := by
  intro sel out hF
  induction hF with
  | nil => intro _; rfl
  | @cons s u sel' out' hsu hF' ih =>
    intro hnd
    rw [List.map_cons, List.nodup_cons] at hnd
    obtain ⟨hs, hnd'⟩ := hnd
    simp only [List.map_cons]
    have hhead : ((u :: out').find? (fun v => v.mid == s.mid)).getD s = u := by
      rw [List.find?_cons_of_pos _ (by simpa using hsu)]
      rfl
    have htail : sel'.map (fun x => ((u :: out').find? (fun v => v.mid == x.mid)).getD x)
        = sel'.map (fun x => (out'.find? (fun v => v.mid == x.mid)).getD x) := by
      apply List.map_congr_left
      intro x hx
      have hne : u.mid ≠ x.mid := by
        rw [hsu]
        intro hcontr
        exact hs (by rw [hcontr]; exact List.mem_map_of_mem Material.mid hx)
      rw [List.find?_cons_of_neg _ (by simpa using hne)]
    rw [hhead, htail, ih hnd']

theorem sum_map_split (p : Material → Bool) (r : Material → Material) :
    ∀ store : List Material, (∀ m ∈ store, p m = false → r m = m) →
      availSum (store.map r) =
        availSum store - availSum (store.filter p) + availSum ((store.filter p).map r) := by
  intro store
  induction store with
  | nil => intro _; simp [availSum]
  | cons m rest ih =>
    intro hfix
    have hfixr : ∀ x ∈ rest, p x = false → r x = x :=
      fun x hx => hfix x (List.mem_cons_of_mem m hx)
    have ihr := ih hfixr
    by_cases hp : p m = true
    · simp only [List.map_cons, List.filter_cons, hp, if_pos, availSum_cons, ihr]
      omega
    · have hpf : p m = false := Bool.eq_false_iff.2 hp
      have hrm : r m = m := hfix m (List.mem_cons_self m rest) hpf
      simp only [List.map_cons, List.filter_cons, hpf, Bool.false_eq_true, if_neg,
        not_false_iff, availSum_cons, hrm, ihr]
      omega

theorem availSum_applyUpdates {store sel out : List Material} (p : Material → Bool)
    (hids : (store.map Material.mid).Nodup)
    (hperm : sel.Perm (store.filter p))
    (hF : List.Forall₂ (fun a b => b.mid = a.mid) sel out) :
    availSum (applyUpdates store out) = availSum store - availSum sel + availSum out := by
  have hsel_nd : (sel.map Material.mid).Nodup := by
    have h1 : ((store.filter p).map Material.mid).Nodup :=
      ((List.filter_sublist store).map Material.mid).nodup hids
    exact ((hperm.map Material.mid).nodup_iff).2 h1
  have hfix : ∀ m ∈ store, p m = false →
      (out.find? (fun u => u.mid == m.mid)).getD m = m := by
    intro m hm hpm
    cases hfind : out.find? (fun u => u.mid == m.mid) with
    | none => rfl
    | some u =>
      exfalso
      have hu : u ∈ out := List.mem_of_find?_eq_some hfind
      have hb : u.mid = m.mid := by simpa using List.find?_some hfind
      rcases forall₂_mem_right hF hu with ⟨a, ha, hmid⟩
      have haf : a ∈ store.filter p := hperm.mem_iff.1 ha
      rcases List.mem_filter.1 haf with ⟨has, hap⟩
      have : a = m := mid_inj hids has hm (by rw [← hmid, hb])
      rw [this] at hap
      rw [hpm] at hap
      exact Bool.false_ne_true hap
  have hsplit := sum_map_split p
    (fun m => (out.find? (fun u => u.mid == m.mid)).getD m) store hfix
  have hfs : availSum (store.filter p) = availSum sel := by
    have := (hperm.map Material.availableQuantity).sum_eq
    simpa [availSum] using this.symm
  have hmapped : availSum ((store.filter p).map
      (fun m => (out.find? (fun u => u.mid == m.mid)).getD m)) = availSum out := by
    have hpm : ((store.filter p).map
        (fun m => (out.find? (fun u => u.mid == m.mid)).getD m)).Perm
        (sel.map (fun m => (out.find? (fun u => u.mid == m.mid)).getD m)) :=
      (hperm.symm).map _
    have := (hpm.map Material.availableQuantity).sum_eq
    rw [map_partner_eq hF hsel_nd] at this
    simpa [availSum] using this
  rw [show applyUpdates store out =
      store.map (fun m => (out.find? (fun u => u.mid == m.mid)).getD m) from rfl,
    hsplit, hfs, hmapped]

/-! ### Aggregate-sum lemmas -/

theorem availSum_nonneg : ∀ l : List Material,
    (∀ m ∈ l, 0 ≤ m.availableQuantity) → 0 ≤ availSum l := by
  intro l
  induction l with
  | nil => intro _; simp [availSum]
  | cons m rest ih =>
    intro h
    have := ih fun x hx => h x (List.mem_cons_of_mem m hx)
    have := h m (List.mem_cons_self m rest)
    rw [availSum_cons]
    omega

theorem availSum_pos {l : List Material} (hpos : ∀ m ∈ l, 0 < m.availableQuantity)
    (hne : l ≠ []) : 0 < availSum l := by
  cases l with
  | nil => exact absurd rfl hne
  | cons m rest =>
    have h1 : 0 < m.availableQuantity := hpos m (List.mem_cons_self m rest)
    have h2 : 0 ≤ availSum rest := availSum_nonneg rest
      fun x hx => le_of_lt (hpos x (List.mem_cons_of_mem m hx))
    rw [availSum_cons]
    omega

theorem exists_pos_of_availSum_pos : ∀ l : List Material,
    0 < availSum l → ∃ m ∈ l, 0 < m.availableQuantity := by
  intro l
  induction l with
  | nil => intro h; simp [availSum] at h
  | cons m rest ih =>
    intro h
    by_cases hm : 0 < m.availableQuantity
    · exact ⟨m, List.mem_cons_self m rest, hm⟩
    · rw [availSum_cons] at h
      have : 0 < availSum rest := by omega
      rcases ih this with ⟨x, hx, hxp⟩
      exact ⟨x, List.mem_cons_of_mem m hx, hxp⟩

theorem filterPos_availSum (code : String) : ∀ store : List Material,
    (∀ m ∈ store, 0 ≤ m.availableQuantity) →
      availSum (store.filter (takeQuery code)) = codeAvail store code := by
  intro store
  induction store with
  | nil => intro _; rfl
  | cons m rest ih =>
    intro hnn
    have hnnr : ∀ x ∈ rest, 0 ≤ x.availableQuantity :=
      fun x hx => hnn x (List.mem_cons_of_mem m hx)
    have ihr := ih hnnr
    unfold codeAvail at *
    by_cases hc : m.matCode = code
    · by_cases hpos : 0 < m.availableQuantity
      · have hq : takeQuery code m = true := (takeQuery_iff code m).2 ⟨hc, hpos⟩
        simp only [List.filter_cons, hq, if_pos, show (m.matCode == code) = true by simpa using hc,
          availSum_cons, ihr]
      · have hq : takeQuery code m = false := by
          rw [Bool.eq_false_iff]
          intro hcontr
          exact hpos ((takeQuery_iff code m).1 hcontr).2
        have hz : m.availableQuantity = 0 :=
          le_antisymm (not_lt.1 hpos) (hnn m (List.mem_cons_self m rest))
        simp only [List.filter_cons, hq, Bool.false_eq_true, if_neg, not_false_iff,
          show (m.matCode == code) = true by simpa using hc, if_pos, availSum_cons, ihr, hz]
        omega
    · have hq : takeQuery code m = false := by
        rw [Bool.eq_false_iff]
        intro hcontr
        exact hc ((takeQuery_iff code m).1 hcontr).1
      simp only [List.filter_cons, hq, Bool.false_eq_true, if_neg, not_false_iff,
        show (m.matCode == code) = false by simpa using hc, ihr]

/-! ### Consequences of the per-document deduction shape -/

theorem DeductRel.conserved {a b : Material} (h : DeductRel a b)
    (ha : a.availableQuantity = a.quantity - sumUsage a) :
    b.availableQuantity = b.quantity - sumUsage b := by
  obtain ⟨_, _, _, hq, _, _, _, _, _, _, _, _, tail, hu, hav⟩ := h
  rw [hav, hq, sumUsage, hu, List.map_append, List.sum_append, ha]
  rw [sumUsage]
  omega

theorem DeductRel.bounds {a b : Material} (h : DeductRel a b)
    (hq : a.availableQuantity ≤ a.quantity) :
    0 ≤ b.availableQuantity ∧ b.availableQuantity ≤ b.quantity := by
  obtain ⟨_, _, _, hqty, _, _, _, _, _, _, h0, hle, _⟩ := h
  constructor
  · exact h0
  · rw [hqty]
    omega

/-! ### Branch lemmas for POST /take -/

theorem takeMaterial_eq_of_empty (store : List Material) (code : String)
    (Q : Int) (tb : String) (dt : Int) (h : (selectFIFO store code).isEmpty = true) :
    takeMaterial store code Q tb dt = .error .materialNotFound := by
  simp only [takeMaterial]
  rw [if_pos h]

theorem takeMaterial_eq_insufficient (store : List Material) (code : String)
    (Q : Int) (tb : String) (dt : Int)
    (hne : ¬ (selectFIFO store code).isEmpty = true)
    (hlt : availSum (selectFIFO store code) < Q) :
    takeMaterial store code Q tb dt = .error .insufficientStock := by
  simp only [takeMaterial]
  rw [if_neg hne]
  have hfold : (selectFIFO store code).foldl (fun acc m => acc + m.availableQuantity) 0
      = availSum (selectFIFO store code) := by
    rw [foldl_add_avail]
    omega
  rw [hfold, if_pos hlt]

theorem takeMaterial_eq_ok (store : List Material) (code : String)
    (Q : Int) (tb : String) (dt : Int)
    (hne : ¬ (selectFIFO store code).isEmpty = true)
    (hge : ¬ availSum (selectFIFO store code) < Q) :
    takeMaterial store code Q tb dt =
      .ok (applyUpdates store (fifoDeduct tb dt Q (selectFIFO store code)).2) := by
  simp only [takeMaterial]
  rw [if_neg hne]
  have hfold : (selectFIFO store code).foldl (fun acc m => acc + m.availableQuantity) 0
      = availSum (selectFIFO store code) := by
    rw [foldl_add_avail]
    omega
  rw [hfold, if_neg hge]

theorem takeMaterial_notFound_iff (store : List Material) (code : String)
    (Q : Int) (tb : String) (dt : Int) :
    takeMaterial store code Q tb dt = .error .materialNotFound ↔
      (selectFIFO store code).isEmpty = true := by
  constructor
  · intro h
    by_contra hne
    by_cases hlt : availSum (selectFIFO store code) < Q
    · rw [takeMaterial_eq_insufficient store code Q tb dt hne hlt] at h
      simp at h
    · rw [takeMaterial_eq_ok store code Q tb dt hne hlt] at h
      simp at h
  · exact takeMaterial_eq_of_empty store code Q tb dt

theorem selectFIFO_sum_eq_codeAvail {store : List Material} {code : String}
    (hnn : ∀ m ∈ store, 0 ≤ m.availableQuantity) :
    availSum (selectFIFO store code) = codeAvail store code := by
  have h1 : availSum (selectFIFO store code) = availSum (store.filter (takeQuery code)) := by
    have := ((selectFIFO_perm store code).map Material.availableQuantity).sum_eq
    simpa [availSum] using this
  rw [h1, filterPos_availSum code store hnn]

theorem selectFIFO_not_empty_of_exists {store : List Material} {code : String}
    (hex : ∃ m ∈ store, m.matCode = code ∧ 0 < m.availableQuantity) :
    ¬ (selectFIFO store code).isEmpty = true := by
  intro h
  rcases hex with ⟨m, hm, hc, hp⟩
  exact absurd hp (not_lt.2 (selectFIFO_isEmpty.1 h m hm hc))

/-! ### Claim C2 -/

/-- Claim C2: for every consume request whose requested quantity `Q` is
strictly greater than the aggregate remaining quantity of the batches with
the given material code (at least one of which has positive remaining
quantity), POST /take answers the insufficient-stock error and the store is
left exactly as it was: no batch's `availableQuantity` or `usageHistory`
changes. -/
theorem c2_insufficient_stock_unchanged (store : List Material) (code : String)
    (Q : Int) (tb : String) (dt : Int)
    (hnn : ∀ m ∈ store, 0 ≤ m.availableQuantity)
    (hex : ∃ m ∈ store, m.matCode = code ∧ 0 < m.availableQuantity)
    (hgt : codeAvail store code < Q) :
    takeMaterial store code Q tb dt = .error .insufficientStock ∧
      takeStep store code Q tb dt = store := by
  have hne := selectFIFO_not_empty_of_exists hex
  have hlt : availSum (selectFIFO store code) < Q := by
    rw [selectFIFO_sum_eq_codeAvail hnn]
    exact hgt
  have herr := takeMaterial_eq_insufficient store code Q tb dt hne hlt
  refine ⟨herr, ?_⟩
  rw [takeStep, herr]

theorem c2_insufficient_stock_unchanged_witness :
    takeMaterial storeW "CEM1" 200 "worker" 20 = .error .insufficientStock ∧
      takeStep storeW "CEM1" 200 "worker" 20 = storeW :=
  c2_insufficient_stock_unchanged storeW "CEM1" 200 "worker" 20
    (by decide) (by decide) (by decide)

/-! ### Claim C8 -/

/-- Claim C8: POST /take answers the material-not-found error exactly when no
batch of the requested material code has positive remaining quantity, and in
that case the store is unchanged. -/
theorem c8_material_not_found_iff (store : List Material) (code : String)
    (Q : Int) (tb : String) (dt : Int) :
    (takeMaterial store code Q tb dt = .error .materialNotFound ↔
      ¬ ∃ m ∈ store, m.matCode = code ∧ 0 < m.availableQuantity) ∧
    ((¬ ∃ m ∈ store, m.matCode = code ∧ 0 < m.availableQuantity) →
      takeStep store code Q tb dt = store) := by
  have hiff : (selectFIFO store code).isEmpty = true ↔
      ¬ ∃ m ∈ store, m.matCode = code ∧ 0 < m.availableQuantity := by
    rw [selectFIFO_isEmpty]
    constructor
    · rintro h ⟨m, hm, hc, hp⟩
      exact absurd hp (not_lt.2 (h m hm hc))
    · intro h m hm hc
      by_contra hpos
      exact h ⟨m, hm, hc, lt_of_not_le hpos⟩
  constructor
  · rw [takeMaterial_notFound_iff store code Q tb dt]
    exact hiff
  · intro h
    have herr := takeMaterial_eq_of_empty store code Q tb dt (hiff.2 h)
    rw [takeStep, herr]

theorem c8_material_not_found_iff_witness :
    (takeMaterial storeW "STEEL" 5 "worker" 20 = .error .materialNotFound ↔
      ¬ ∃ m ∈ storeW, m.matCode = "STEEL" ∧ 0 < m.availableQuantity) ∧
    ((¬ ∃ m ∈ storeW, m.matCode = "STEEL" ∧ 0 < m.availableQuantity) →
      takeStep storeW "STEEL" 5 "worker" 20 = storeW) :=
  c8_material_not_found_iff storeW "STEEL" 5 "worker" 20

/-! ### Claim C9 -/

/-- Claim C9 (implicit behaviour): POST /take does not validate positivity of
the requested quantity; a request for a zero or negative quantity against a
code with at least one positive-remaining batch succeeds and deducts
nothing: the resulting store is exactly the old one. -/
theorem c9_nonpositive_request_succeeds (store : List Material) (code : String)
    (Q : Int) (tb : String) (dt : Int)
    (hids : (store.map Material.mid).Nodup)
    (hQ : Q ≤ 0)
    (hex : ∃ m ∈ store, m.matCode = code ∧ 0 < m.availableQuantity) :
    takeMaterial store code Q tb dt = .ok store := by
  have hne := selectFIFO_not_empty_of_exists hex
  have hselne : selectFIFO store code ≠ [] := by
    intro h
    exact hne (by rw [h]; rfl)
  have hpos : 0 < availSum (selectFIFO store code) :=
    availSum_pos (selectFIFO_pos) hselne
  have hge : ¬ availSum (selectFIFO store code) < Q := by omega
  rw [takeMaterial_eq_ok store code Q tb dt hne hge,
    fifoDeduct_nonpos tb dt (selectFIFO store code) hQ,
    applyUpdates_self hids selectFIFO_sub]

theorem c9_nonpositive_request_succeeds_witness :
    takeMaterial storeW "CEM1" (-3) "worker" 20 = .ok storeW :=
  c9_nonpositive_request_succeeds storeW "CEM1" (-3) "worker" 20
    (by decide) (by decide) (by decide)

/-! ### Claim C1 -/

/-- Claim C1: a consume request for a positive quantity `Q` not exceeding the
aggregate remaining quantity of the code's batches succeeds; the visited list
is exactly the positive-remaining batches of the code in ascending
`deliveredDate` order, the deduction performed on it is precisely the
spec-worded pass `specVisit` (deduct `min(remainingQuantity,
amountStillNeeded)` from each batch, append one usage event with the deducted
quantity, `takenBy` and `date`, stop at zero), and in total exactly `Q` is
deducted from the store. -/
theorem c1_fifo_consume_exact (store : List Material) (code : String)
    (Q : Int) (tb : String) (dt : Int)
    (hids : (store.map Material.mid).Nodup)
    (hnn : ∀ m ∈ store, 0 ≤ m.availableQuantity)
    (hQ : 0 < Q)
    (htot : Q ≤ codeAvail store code) :
    List.Sorted dateLe (selectFIFO store code) ∧
    (selectFIFO store code).Perm (store.filter (takeQuery code)) ∧
    takeMaterial store code Q tb dt =
      .ok (applyUpdates store (specVisit tb dt Q (selectFIFO store code))) ∧
    availSum (applyUpdates store (specVisit tb dt Q (selectFIFO store code)))
      = availSum store - Q := by
  have hsum : availSum (selectFIFO store code) = codeAvail store code :=
    selectFIFO_sum_eq_codeAvail hnn
  have hge : ¬ availSum (selectFIFO store code) < Q := by omega
  have hexsel : ∃ m ∈ selectFIFO store code, 0 < m.availableQuantity :=
    exists_pos_of_availSum_pos (selectFIFO store code) (by omega)
  have hne : ¬ (selectFIFO store code).isEmpty = true := by
    intro h
    rcases hexsel with ⟨m, hm, _⟩
    rw [List.isEmpty_iff] at h
    rw [h] at hm
    exact absurd hm (List.not_mem_nil m)
  have hspec : (fifoDeduct tb dt Q (selectFIFO store code)).2
      = specVisit tb dt Q (selectFIFO store code) :=
    fifoDeduct_eq_specVisit tb dt Q (selectFIFO store code) selectFIFO_pos hQ
  have hok := takeMaterial_eq_ok store code Q tb dt hne hge
  rw [hspec] at hok
  refine ⟨selectFIFO_sorted store code, selectFIFO_perm store code, hok, ?_⟩
  have hF : List.Forall₂ (fun a b => b.mid = a.mid) (selectFIFO store code)
      (fifoDeduct tb dt Q (selectFIFO store code)).2 :=
    List.Forall₂.imp (fun _ _ h => h.1)
      (fifoDeduct_forall₂ tb dt Q (selectFIFO store code) selectFIFO_pos)
  have hupd := availSum_applyUpdates (takeQuery code) hids
    (selectFIFO_perm store code) hF
  have hded := fifoDeduct_sum tb dt Q (selectFIFO store code) selectFIFO_pos hQ
    (by omega)
  rw [← hspec, hupd, hded.2]
  omega

theorem c1_fifo_consume_exact_witness :
    List.Sorted dateLe (selectFIFO storeW "CEM1") ∧
    (selectFIFO storeW "CEM1").Perm (storeW.filter (takeQuery "CEM1")) ∧
    takeMaterial storeW "CEM1" 120 "worker" 20 =
      .ok (applyUpdates storeW (specVisit "worker" 20 120 (selectFIFO storeW "CEM1"))) ∧
    availSum (applyUpdates storeW (specVisit "worker" 20 120 (selectFIFO storeW "CEM1")))
      = availSum storeW - 120 :=
  c1_fifo_consume_exact storeW "CEM1" 120 "worker" 20
    (by decide) (by decide) (by decide) (by decide)

/-! ### Case analysis of the state transitions -/

theorem takeStep_cases (store : List Material) (code : String) (Q : Int)
    (tb : String) (dt : Int) :
    takeStep store code Q tb dt = store ∨
    takeStep store code Q tb dt =
      applyUpdates store (fifoDeduct tb dt Q (selectFIFO store code)).2 := by
  by_cases h1 : (selectFIFO store code).isEmpty = true
  · left
    rw [takeStep, takeMaterial_eq_of_empty store code Q tb dt h1]
  · by_cases h2 : availSum (selectFIFO store code) < Q
    · left
      rw [takeStep, takeMaterial_eq_insufficient store code Q tb dt h1 h2]
    · right
      rw [takeStep, takeMaterial_eq_ok store code Q tb dt h1 h2]

theorem updateStatusOp_ok {store : List Material} {matCode status : String}
    {store' : List Material} (h : updateStatusOp store matCode status = .ok store') :
    store' = store.map (statusApply matCode status) := by
  unfold updateStatusOp at h
  by_cases h1 : (! statusWhitelist.contains status) = true
  · rw [if_pos h1] at h
    exact absurd h (by simp)
  · rw [if_neg h1] at h
    by_cases h2 : (store.filter (fun m => m.matCode == matCode)).isEmpty = true
    · rw [if_pos h2] at h
      exact absurd h (by simp)
    · rw [if_neg h2] at h
      have h' : store.map (statusApply matCode status) = store' := by
        simpa using h
      exact h'.symm

theorem statusStep_cases (store : List Material) (matCode status : String) :
    statusStep store matCode status = store ∨
    statusStep store matCode status = store.map (statusApply matCode status) := by
  rw [statusStep]
  cases hop : updateStatusOp store matCode status with
  | error e => left; rfl
  | ok store' =>
    right
    simpa using updateStatusOp_ok hop

/-! ### Claims C3 and C4 -/

theorem addStep_unchanged (store : List Material) (mid : Nat) (matCode : String)
    (quantity amount : Int) (document addedBy : String) (date : Int)
    (projectAssigned : Nat) :
    addStep store mid matCode quantity amount document addedBy date projectAssigned
      = store := rfl

theorem takeStep_nil (code : String) (Q : Int) (tb : String) (dt : Int) :
    takeStep [] code Q tb dt = [] := by
  rw [takeStep, takeMaterial_eq_of_empty [] code Q tb dt rfl]

theorem statusStep_nil (matCode status : String) :
    statusStep [] matCode status = [] := by
  rcases statusStep_cases [] matCode status with h | h
  · exact h
  · rw [h]
    rfl

theorem reachAT_empty (store : List Material) (n : Nat) (h : ReachAT store n) :
    store = [] := by
  induction h with
  | init => rfl
  | add store n matCode quantity amount document addedBy date projectAssigned hr ih =>
    rw [addStep_unchanged]
    exact ih
  | take store n code quantity takenBy evDate hr ih =>
    rw [ih]
    exact takeStep_nil code quantity takenBy evDate

theorem reachFull_empty (store : List Material) (n : Nat) (h : ReachFull store n) :
    store = [] := by
  induction h with
  | init => rfl
  | add store n matCode quantity amount document addedBy date projectAssigned hr ih =>
    rw [addStep_unchanged]
    exact ih
  | take store n code quantity takenBy evDate hr ih =>
    rw [ih]
    exact takeStep_nil code quantity takenBy evDate
  | status store n matCode status hr ih =>
    rw [ih]
    exact statusStep_nil matCode status

/-- Claim C3: for all sequences of batch additions and consume operations
starting from the empty store, every batch's `remainingQuantity` stays in
the closed interval `[0, deliveredQuantity]` (the decidable per-batch check
`inDeliveredRange`, required of every batch of the store).  The claim holds
on this code, but vacuously: POST /add never persists a document, because
materialSchema requires `name` and the route never sets it, so `save()`
always fails validation and every addition leaves the store unchanged; a
consumption against the resulting empty store is a 404 no-op.  Hence the
only reachable store is the empty one (`reachAT_empty`), and every batch of
it trivially satisfies the bound. -/
theorem c3_remaining_in_range (store : List Material) (n : Nat)
    (h : ReachAT store n) :
    store.all inDeliveredRange = true := by
  rw [reachAT_empty store n h]
  rfl

theorem c3_remaining_in_range_witness :
    (takeStep (addStep [] 0 "CEM1" 100 10 "" "admin" 1 7) "CEM1" 20 "worker" 2).all
      inDeliveredRange = true :=
  c3_remaining_in_range
    (takeStep (addStep [] 0 "CEM1" 100 10 "" "admin" 1 7) "CEM1" 20 "worker" 2) 1
    (ReachAT.take (addStep [] 0 "CEM1" 100 10 "" "admin" 1 7) 1 "CEM1" 20 "worker" 2
      (ReachAT.add [] 0 "CEM1" 100 10 "" "admin" 1 7 ReachAT.init))

/-- Claim C4: after every operation of the system (batch addition,
consumption, bulk status update) every batch satisfies `remainingQuantity =
deliveredQuantity - sum(usageEvents[].quantity)` (the decidable per-batch
check `usageConserved`, required of every batch of the store).  As with C3
the equation holds in every reachable state, but vacuously: no addition ever
persists (the schema-required `name` is never set by POST /add), so every
reachable store is empty (`reachFull_empty`); in particular the
"out of stock" bulk update - which sets `availableQuantity` to 0 without
touching `usageHistory`, and would break the equation on a batch with
positive remaining quantity - never finds a document to update. -/
theorem c4_conservation_every_state (store : List Material) (n : Nat)
    (h : ReachFull store n) :
    store.all usageConserved = true := by
  rw [reachFull_empty store n h]
  rfl

theorem c4_conservation_every_state_witness :
    (statusStep (takeStep (addStep [] 0 "CEM1" 5 1 "" "admin" 1 7) "CEM1" 2 "w" 3)
      "CEM1" "out of stock").all usageConserved = true :=
  c4_conservation_every_state
    (statusStep (takeStep (addStep [] 0 "CEM1" 5 1 "" "admin" 1 7) "CEM1" 2 "w" 3)
      "CEM1" "out of stock") 1
    (ReachFull.status (takeStep (addStep [] 0 "CEM1" 5 1 "" "admin" 1 7) "CEM1" 2 "w" 3) 1
      "CEM1" "out of stock"
      (ReachFull.take (addStep [] 0 "CEM1" 5 1 "" "admin" 1 7) 1 "CEM1" 2 "w" 3
        (ReachFull.add [] 0 "CEM1" 5 1 "" "admin" 1 7 ReachFull.init)))

/-! ### Claims C7 and C10 -/

theorem contains_iff_mem_str {l : List String} {s : String} :
    l.contains s = true ↔ s ∈ l :=
  List.elem_iff

theorem statusApply_statusRel (code status : String) (a : Material) :
    StatusRel code status a (statusApply code status a) := by
  unfold StatusRel statusApply
  by_cases hc : (a.matCode == code) = true
  · rw [if_pos hc]
    have hcode : a.matCode = code := by simpa using hc
    refine ⟨rfl, rfl, rfl, rfl, rfl, rfl, rfl, rfl, rfl, ?_, ?_⟩
    · intro _
      refine ⟨rfl, ?_, ?_⟩
      · intro hoos
        simp [show (status == "out of stock") = true by simpa using hoos]
      · intro hnoos
        simp [show (status == "out of stock") = false by simpa using hnoos]
    · intro hne
      exact absurd hcode hne
  · rw [if_neg hc]
    have hcode : a.matCode ≠ code := by simpa using hc
    exact ⟨rfl, rfl, rfl, rfl, rfl, rfl, rfl, rfl, rfl,
      fun h => absurd h hcode, fun _ => rfl⟩

theorem statusFilter_isEmpty_iff {store : List Material} {code : String} :
    ((store.filter (fun m => m.matCode == code)).isEmpty = true) ↔
      ∀ m ∈ store, m.matCode ≠ code := by
  rw [List.isEmpty_iff, List.filter_eq_nil_iff]
  constructor
  · intro h m hm hc
    exact h m hm (by simpa using hc)
  · intro h m hm hc
    exact h m hm (by simpa using hc)

/-- Claim C7: for every material code and whitelisted status value, the bulk
status update either reports not-found (exactly when no batch has the code)
or succeeds, updating every batch by `statusApply`: all batches with the code
get the new status, with `remainingQuantity` forced to 0 exactly when the
status is "out of stock", and every other field (usage events, delivered
quantity, ...) of every batch is unchanged. -/
theorem c7_bulk_status_update (store : List Material) (code status : String)
    (hst : status ∈ statusWhitelist) :
    (updateStatusOp store code status = .error .notFound ↔
      ∀ m ∈ store, m.matCode ≠ code) ∧
    ((∃ m ∈ store, m.matCode = code) →
      updateStatusOp store code status = .ok (store.map (statusApply code status)) ∧
      List.Forall₂ (StatusRel code status) store (store.map (statusApply code status))) := by
  have hcont : statusWhitelist.contains status = true := contains_iff_mem_str.2 hst
  have h1 : ¬ ((! statusWhitelist.contains status) = true) := by
    rw [hcont]
    simp
  constructor
  · unfold updateStatusOp
    rw [if_neg h1]
    by_cases h2 : ((store.filter (fun m => m.matCode == code)).isEmpty = true)
    · rw [if_pos h2]
      simp only [true_iff]
      exact statusFilter_isEmpty_iff.1 h2
    · rw [if_neg h2]
      constructor
      · intro h
        exact absurd h (by simp)
      · intro h
        exact absurd (statusFilter_isEmpty_iff.2 h) h2
  · rintro ⟨m, hm, hc⟩
    have h2 : ¬ ((store.filter (fun m => m.matCode == code)).isEmpty = true) := by
      intro h
      exact absurd hc (statusFilter_isEmpty_iff.1 h m hm)
    constructor
    · unfold updateStatusOp
      rw [if_neg h1, if_neg h2]
    · exact List.forall₂_map_right_iff.2
        (List.forall₂_same.2 fun a _ => statusApply_statusRel code status a)

theorem c7_bulk_status_update_witness :
    (updateStatusOp storeW "CEM1" "out of stock" = .error .notFound ↔
      ∀ m ∈ storeW, m.matCode ≠ "CEM1") ∧
    ((∃ m ∈ storeW, m.matCode = "CEM1") →
      updateStatusOp storeW "CEM1" "out of stock" =
        .ok (storeW.map (statusApply "CEM1" "out of stock")) ∧
      List.Forall₂ (StatusRel "CEM1" "out of stock") storeW
        (storeW.map (statusApply "CEM1" "out of stock"))) :=
  c7_bulk_status_update storeW "CEM1" "out of stock" (by decide)

/-- Claim C10: the bulk status update accepts exactly the three lowercase
strings "available", "on hold" and "out of stock"; any other value (in
particular each spelling of the schema enum) is rejected with the
invalid-status error and the store is unchanged; the whitelist is disjoint
from the schema enum, so a status written by this operation never equals an
enum value. -/
theorem c10_status_whitelist_vs_enum (store : List Material) (code status : String) :
    (updateStatusOp store code status = .error .invalidStatus ↔
      status ∉ statusWhitelist) ∧
    (status ∉ statusWhitelist → statusStep store code status = store) ∧
    (∀ s ∈ statusWhitelist, s ∉ statusEnum) ∧
    (∀ store', updateStatusOp store code status = .ok store' →
      ∀ m' ∈ store', m'.matCode = code → m'.status ∉ statusEnum) := by
  have hdisj : ∀ s ∈ statusWhitelist, s ∉ statusEnum := by decide
  by_cases hmem : status ∈ statusWhitelist
  · have hcont : statusWhitelist.contains status = true := contains_iff_mem_str.2 hmem
    have h1 : ¬ ((! statusWhitelist.contains status) = true) := by
      rw [hcont]
      simp
    refine ⟨?_, fun h => absurd hmem h, hdisj, ?_⟩
    · unfold updateStatusOp
      rw [if_neg h1]
      constructor
      · intro h
        by_cases h2 : ((store.filter (fun m => m.matCode == code)).isEmpty = true)
        · rw [if_pos h2] at h
          exact absurd h (by simp)
        · rw [if_neg h2] at h
          exact absurd h (by simp)
      · intro h
        exact absurd hmem h
    · intro store' hok m' hm' hcode
      rw [updateStatusOp_ok hok] at hm'
      rcases List.mem_map.1 hm' with ⟨a, _, rfl⟩
      unfold statusApply at hcode ⊢
      by_cases hc : (a.matCode == code) = true
      · rw [if_pos hc] at hcode ⊢
        exact hdisj status hmem
      · rw [if_neg hc] at hcode
        exact absurd hcode (by simpa using hc)
  · have hcont : statusWhitelist.contains status = false := by
      rw [← Bool.not_eq_true]
      intro h
      exact hmem (contains_iff_mem_str.1 h)
    have h1 : (! statusWhitelist.contains status) = true := by
      rw [hcont]
      rfl
    have herr : updateStatusOp store code status = .error .invalidStatus := by
      unfold updateStatusOp
      rw [if_pos h1]
    refine ⟨?_, ?_, hdisj, ?_⟩
    · rw [herr]
      simp [hmem]
    · intro _
      rw [statusStep, herr]
    · intro store' hok
      rw [herr] at hok
      exact absurd hok (by simp)

theorem c10_status_whitelist_vs_enum_witness :
    (updateStatusOp storeW "CEM1" "Available" = .error .invalidStatus ↔
      "Available" ∉ statusWhitelist) ∧
    ("Available" ∉ statusWhitelist → statusStep storeW "CEM1" "Available" = storeW) ∧
    (∀ s ∈ statusWhitelist, s ∉ statusEnum) ∧
    (∀ store', updateStatusOp storeW "CEM1" "Available" = .ok store' →
      ∀ m' ∈ store', m'.matCode = "CEM1" → m'.status ∉ statusEnum) :=
  c10_status_whitelist_vs_enum storeW "CEM1" "Available"

/-! ### Calendar lemmas and the report claims C5 and C6 -/

theorem dayFromYear_succ (y : Int) :
    dayFromYear (y + 1) = dayFromYear y + 365 + (if isLeapYear y then 1 else 0) := by
  unfold dayFromYear isLeapYear
  split <;> rename_i hcond
  · simp only [Bool.or_eq_true, Bool.and_eq_true, beq_iff_eq, bne_iff_ne, ne_eq] at hcond
    omega
  · simp only [Bool.or_eq_true, Bool.and_eq_true, beq_iff_eq, bne_iff_ne, ne_eq,
      not_or, not_and, Bool.not_eq_true] at hcond
    omega

theorem makeDay_month_end (year month : Int) (h1 : 1 ≤ month) (h2 : month ≤ 12) :
    makeDay year month 0 =
      makeDay year (month - 1) (daysInMonth (month - 1) (isLeapYear year)) := by
  have hsucc := dayFromYear_succ year
  interval_cases month <;>
    cases hb : isLeapYear year <;>
      simp [hb] at hsucc <;>
      simp [makeDay, dayFromMonth, daysInMonth, hb] <;>
      omega

theorem getMonthRange_eq (year month : Int) (h1 : 1 ≤ month) (h2 : month ≤ 12) :
    getMonthRange year month =
      (dateValue year (month - 1) 1 0 0 0 0,
       dateValue year (month - 1) (daysInMonth (month - 1) (isLeapYear year)) 23 59 59 999) := by
  unfold getMonthRange
  rw [Prod.mk.injEq]
  refine ⟨rfl, ?_⟩
  unfold dateValue
  rw [makeDay_month_end year month h1 h2]

theorem foldl_add_quantity (l : List ConsumptionEntry) (init : Int) :
    l.foldl (fun sum c => sum + c.quantity) init
      = init + (l.map ConsumptionEntry.quantity).sum := by
  induction l generalizing init with
  | nil => simp
  | cons c rest ih =>
    simp only [List.foldl_cons, ih, List.map_cons, List.sum_cons]
    ring

theorem reportLine_monthlyConsumed (s e : Int) (mat : Material) :
    (reportLine s e mat).monthlyConsumed =
      ((mat.usageHistory.filter (fun c => decide (s ≤ c.date ∧ c.date ≤ e))).map
        UsageEvent.quantity).sum := by
  unfold reportLine
  dsimp only
  rw [List.filter_map, foldl_add_quantity, List.map_map]
  simp only [zero_add]
  rfl

/-- Claim C5: the report's `monthlyConsumed` for a batch is exactly the sum
of the quantities of the usage events whose date lies in `[start, end]`,
where `getMonthRange` yields `start` = the first instant of the month (day 1,
00:00:00.000) and `end` = the last instant of the month (its last day,
23:59:59.999).  The report is a pure function of the store in this embedding,
so re-derivation on the same store yields the same value by construction. -/
theorem c5_monthly_consumed (store : List Material) (pid : Nat) (month year : Int)
    (h1 : 1 ≤ month) (h2 : month ≤ 12) :
    getMonthRange year month =
      (dateValue year (month - 1) 1 0 0 0 0,
       dateValue year (month - 1) (daysInMonth (month - 1) (isLeapYear year)) 23 59 59 999) ∧
    ∀ i : Nat,
      ((materialReport store pid month year)[i]?).map ReportLine.monthlyConsumed =
      ((store.filter (fun m => m.projectAssigned == pid))[i]?).map (fun mat =>
        ((mat.usageHistory.filter (fun c =>
          decide ((getMonthRange year month).1 ≤ c.date ∧
            c.date ≤ (getMonthRange year month).2))).map UsageEvent.quantity).sum) := by
  refine ⟨getMonthRange_eq year month h1 h2, ?_⟩
  intro i
  unfold materialReport
  rw [List.getElem?_map]
  cases hx : (store.filter (fun m => m.projectAssigned == pid))[i]? with
  | none => rfl
  | some mat =>
    simp [reportLine_monthlyConsumed]

theorem c5_monthly_consumed_witness :
    getMonthRange 2024 2 =
      (dateValue 2024 (2 - 1) 1 0 0 0 0,
       dateValue 2024 (2 - 1) (daysInMonth (2 - 1) (isLeapYear 2024)) 23 59 59 999) ∧
    ∀ i : Nat,
      ((materialReport storeR 7 2 2024)[i]?).map ReportLine.monthlyConsumed =
      ((storeR.filter (fun m => m.projectAssigned == 7))[i]?).map (fun mat =>
        ((mat.usageHistory.filter (fun c =>
          decide ((getMonthRange 2024 2).1 ≤ c.date ∧
            c.date ≤ (getMonthRange 2024 2).2))).map UsageEvent.quantity).sum) :=
  c5_monthly_consumed storeR 7 2 2024 (by decide) (by decide)

/-- Claim C6: every line of the monthly report carries `monthlyAdded` equal
to the batch's delivered quantity when the delivery date lies in the month's
`[start, end]` interval and 0 otherwise.  The report function only reads the
store (it is a pure projection in this embedding), so no batch or usage event
is mutated by building it. -/
theorem c6_monthly_added (store : List Material) (pid : Nat) (month year : Int) :
    ∀ i : Nat,
      ((materialReport store pid month year)[i]?).map ReportLine.monthlyAdded =
      ((store.filter (fun m => m.projectAssigned == pid))[i]?).map (fun mat =>
        if (getMonthRange year month).1 ≤ mat.date ∧
            mat.date ≤ (getMonthRange year month).2 then mat.quantity else 0) := by
  intro i
  unfold materialReport
  rw [List.getElem?_map]
  cases hx : (store.filter (fun m => m.projectAssigned == pid))[i]? with
  | none => rfl
  | some mat =>
    simp [reportLine]
